import Mathlib

/-!
Verification development for the detection-postprocessing and tracking core
of the multimodal agent: the YOLO raw-tensor decoder and non-maximum
suppression stage of VisionModule.detect (src/vision/visionmodule.cpp), and
the SimpleTracker frame-to-frame identity tracker (src/main.cpp).

Modelling conventions:
- cv::Rect is a record of four machine integers, modelled by Int.
- float arithmetic is modelled exactly over the rationals; float literals in
  the source are read at their decimal value.
- static_cast<int> of a float truncates toward zero, modelled by truncQ.
- std::map<int, TrackedObject> is iterated in ascending key order; it is
  modelled as a list of TrackedObject kept sorted by strictly increasing id
  (the well-formedness predicate WF below). New tracks receive the keys
  nextId, nextId + 1, ..., all larger than every existing key, so insertion
  corresponds to appending to the sorted list.
- std::string labels come from the COCO_CLASSES table. Modelled from the
  spec: the class label table is an ordered list of classCount distinct
  names indexed by classId; since the table is injective, a label is
  represented by its class index itself (an Int).
-/

/-- Pixel rectangle, as cv::Rect: x, y, width, height. -/
structure Rect where
  x : Int
  y : Int
  w : Int
  h : Int
deriving DecidableEq, Repr

/-- cv::Rect::area, width times height. -/
def Rect.area (r : Rect) : Int := r.w * r.h

/-- Area of the cv::Rect intersection (a and b): the overlap rectangle when
both its sides are positive, otherwise the empty rectangle of area 0. -/
def interArea (a b : Rect) : Int :=
  let iw := min (a.x + a.w) (b.x + b.w) - max a.x b.x
  let ih := min (a.y + a.h) (b.y + b.h) - max a.y b.y
  if 0 < iw ∧ 0 < ih then iw * ih else 0

/-- The iou helper of visionmodule.cpp: intersection over union, with the
zero-union guard returning 0. -/
def iou (a b : Rect) : ℚ :=
  let inter : ℚ := (interArea a b : Int)
  let uni : ℚ := ((Rect.area a : Int) : ℚ) + ((Rect.area b : Int) : ℚ) - inter
  if 0 < uni then inter / uni else 0

/-- SimpleTracker::calculateIOU of main.cpp; the same computation as iou. -/
def calculateIOU (a b : Rect) : ℚ :=
  let inter : ℚ := (interArea a b : Int)
  let uni : ℚ := ((Rect.area a : Int) : ℚ) + ((Rect.area b : Int) : ℚ) - inter
  if 0 < uni then inter / uni else 0

/-- Truncation toward zero, the semantics of static_cast<int> on a float. -/
def truncQ (q : ℚ) : Int := if q < 0 then ⌈q⌉ else ⌊q⌋

/-- The Detection record of visionmodule.h: label, score, box. The label
is the class index standing in for the COCO class-name string. -/
structure Detection where
  label : Int
  score : ℚ
  box : Rect
deriving DecidableEq, Repr

/-- Candidate of visionmodule.cpp: box, score, classId. -/
structure Candidate where
  box : Rect
  score : ℚ
  classId : Int
deriving DecidableEq, Repr

/-- One column of the raw YOLO output tensor (a RawPrediction): center x/y,
width, height in model-input coordinates, plus the per-class scores
data[4..numAttrs) for this column. -/
structure RawPrediction where
  x : ℚ
  y : ℚ
  w : ℚ
  h : ℚ
  scores : List ℚ
deriving DecidableEq, Repr

/-- TrackedObject of main.cpp: box, label, confidence, missedFrames, id. -/
structure TrackedObject where
  box : Rect
  label : Int
  confidence : ℚ
  missedFrames : Int
  id : Int
deriving DecidableEq, Repr

/-- The SimpleTracker state: the id-keyed map of tracks (as an id-sorted
list) and the monotone nextId counter. -/
structure SimpleTracker where
  trackedObjects : List TrackedObject
  nextId : Int
deriving DecidableEq, Repr

/-- Default rectangle used with List.getD. -/
def dRect : Rect := ⟨0, 0, 0, 0⟩

/-- Default detection used with List.getD. -/
def dDet : Detection := ⟨0, 0, dRect⟩

/-- Default track used with List.getD. -/
def dTrack : TrackedObject := ⟨dRect, 0, 0, 0, 0⟩

/-- Well-formedness of the tracker state: the list represents a
std::map<int, TrackedObject> in ascending key order, and every issued id is
below the nextId counter. -/
def WF (s : SimpleTracker) : Prop :=
  s.trackedObjects.Pairwise (fun a b => a.id < b.id) ∧
  ∀ t ∈ s.trackedObjects, t.id < s.nextId

/-- IOU_THRESHOLD of SimpleTracker (0.3f). -/
def IOU_THRESHOLD : ℚ := 0.3

/-- MAX_MISSED_FRAMES of SimpleTracker (5). -/
def MAX_MISSED_FRAMES : Int := 5

/-- The inner matching loop of SimpleTracker::updateTracks: scan the indexed
detections in order, skipping consumed ones and label mismatches, keeping
the running best (bestIOU, bestMatch) pair; an unskipped detection replaces
the best exactly when its IoU with the track box exceeds both IOU_THRESHOLD
and the running bestIOU (strictly), so the earliest index wins ties. -/
def bestMatchGo (tb : Rect) (lbl : Int) (m : List Bool) :
    List (Nat × Detection) → ℚ → Option (Nat × Detection) → Option (Nat × Detection)
  | [], _, best => best
  | (i, d) :: rest, bestIOU, best =>
    if m.getD i false = true ∨ d.label ≠ lbl then
      bestMatchGo tb lbl m rest bestIOU best
    else
      if IOU_THRESHOLD < calculateIOU tb d.box ∧ bestIOU < calculateIOU tb d.box then
        bestMatchGo tb lbl m rest (calculateIOU tb d.box) (some (i, d))
      else
        bestMatchGo tb lbl m rest bestIOU best

/-- The per-track best match over all detections, starting from
bestIOU = 0 and bestMatch = none as in the source. -/
def bestMatch (tb : Rect) (lbl : Int) (dets : List Detection) (m : List Bool) :
    Option (Nat × Detection) :=
  bestMatchGo tb lbl m dets.enum 0 none

/-- Exponential smoothing of the track box on a match: each of x, y, width,
height becomes 0.7 times the old value plus 0.3 times the new value,
truncated toward zero (static_cast<int>). -/
def smoothRect (old nw : Rect) : Rect :=
  { x := truncQ (0.7 * (old.x : ℚ) + 0.3 * (nw.x : ℚ))
    y := truncQ (0.7 * (old.y : ℚ) + 0.3 * (nw.y : ℚ))
    w := truncQ (0.7 * (old.w : ℚ) + 0.3 * (nw.w : ℚ))
    h := truncQ (0.7 * (old.h : ℚ) + 0.3 * (nw.h : ℚ)) }

/-- Result of processing one existing track in updateTracks. -/
structure StepResult where
  track : TrackedObject
  flags : List Bool
  choice : Option Nat
  emission : Option Detection
deriving DecidableEq, Repr

/-- Processing of one existing track in updateTracks: missedFrames is
incremented; if the matching scan finds a detection, the track box is
smoothed, confidence replaced, missedFrames reset to 0, the detection
marked consumed, and one Detection with the track label, the new score and
the smoothed box is emitted. The net effect of increment-then-reset is
recorded directly. -/
def trackStep (dets : List Detection) (m : List Bool) (t : TrackedObject) : StepResult :=
  match bestMatch t.box t.label dets m with
  | none => ⟨{ t with missedFrames := t.missedFrames + 1 }, m, none, none⟩
  | some (i, d) =>
      let nb := smoothRect t.box d.box
      ⟨{ t with box := nb, confidence := d.score, missedFrames := 0 },
        m.set i true, some i, some ⟨t.label, d.score, nb⟩⟩

/-- Result of the first loop of updateTracks over all existing tracks. -/
structure PhaseAResult where
  tracks : List TrackedObject
  flags : List Bool
  choices : List (Option Nat)
  emissions : List (Option Detection)
deriving DecidableEq, Repr

/-- The first loop of updateTracks: process the existing tracks in map
iteration order (ascending id), threading the consumed flags. -/
def phaseA (dets : List Detection) : List TrackedObject → List Bool → PhaseAResult
  | [], m => ⟨[], m, [], []⟩
  | t :: ts, m =>
    let st := trackStep dets m t
    let r := phaseA dets ts st.flags
    ⟨st.track :: r.tracks, r.flags, st.choice :: r.choices, st.emission :: r.emissions⟩

/-- Result of the final loop of updateTracks over the unmatched detections. -/
structure SpawnResult where
  tracks : List TrackedObject
  output : List Detection
  ids : List Int
  nextId : Int
deriving DecidableEq, Repr

/-- The final loop of updateTracks: every detection not consumed by the
matching loop spawns a new track with missedFrames = 0 and id nextId (the
counter is then incremented), and is emitted unchanged. -/
def spawnTracks (nid : Int) : List (Detection × Bool) → SpawnResult
  | [] => ⟨[], [], [], nid⟩
  | (d, consumed) :: rest =>
    if consumed then spawnTracks nid rest
    else
      let t : TrackedObject := ⟨d.box, d.label, d.score, 0, nid⟩
      let r := spawnTracks (nid + 1) rest
      ⟨t :: r.tracks, d :: r.output, nid :: r.ids, r.nextId⟩

/-- Result of one updateTracks call, together with the ids issued to the
tracks created during the call. -/
structure UpdateResult where
  state : SimpleTracker
  output : List Detection
  newIds : List Int
deriving DecidableEq, Repr

/-- SimpleTracker::updateTracks: match and age the existing tracks, erase
every track whose missedFrames exceeds MAX_MISSED_FRAMES, then spawn new
tracks for the unconsumed detections; the returned list is the matched-track
emissions followed by the unconsumed detections. -/
def updateTracks (s : SimpleTracker) (newDetections : List Detection) : UpdateResult :=
  let r := phaseA newDetections s.trackedObjects (List.replicate newDetections.length false)
  let kept := r.tracks.filter (fun t => decide (t.missedFrames ≤ MAX_MISSED_FRAMES))
  let sp := spawnTracks s.nextId (newDetections.zip r.flags)
  ⟨⟨kept ++ sp.tracks, sp.nextId⟩, r.emissions.reduceOption ++ sp.output, sp.ids⟩

/-- The consumed flags after the matching loop has processed the first k
tracks (flags start all false). -/
def flagsAt (dets : List Detection) (ts : List TrackedObject) (k : Nat) : List Bool :=
  (phaseA dets (ts.take k) (List.replicate dets.length false)).flags

/-- A detection index a track with box tb and label lbl can claim, given
the consumed flags m: in range, not yet consumed, same label, and IoU with
the track box strictly above IOU_THRESHOLD. -/
def qualifies (dets : List Detection) (m : List Bool) (tb : Rect) (lbl : Int) (i : Nat) : Prop :=
  i < dets.length ∧ m.getD i false = false ∧ (dets.getD i dDet).label = lbl ∧
    IOU_THRESHOLD < calculateIOU tb (dets.getD i dDet).box

/-- The claim of qualifies, phrased on an indexed detection pair as carried
by the matching scan. -/
def qualP (m : List Bool) (tb : Rect) (lbl : Int) (p : Nat × Detection) : Prop :=
  m.getD p.1 false = false ∧ p.2.label = lbl ∧
    IOU_THRESHOLD < calculateIOU tb p.2.box

/-- The k-th existing track of the state (map iteration order). -/
def trackAt (s : SimpleTracker) (k : Nat) : TrackedObject :=
  s.trackedObjects.getD k dTrack

/-- The consumed flags the matching loop sees when it reaches the k-th
track of the state. -/
def trackFlags (s : SimpleTracker) (dets : List Detection) (k : Nat) : List Bool :=
  flagsAt dets s.trackedObjects k

/-- The detection index claimed by the k-th track in this call, if any. -/
def trackChoice (s : SimpleTracker) (dets : List Detection) (k : Nat) : Option Nat :=
  (phaseA dets s.trackedObjects (List.replicate dets.length false)).choices.getD k none

/-- The k-th track as updated by the matching loop of this call. -/
def trackAfter (s : SimpleTracker) (dets : List Detection) (k : Nat) : TrackedObject :=
  (phaseA dets s.trackedObjects (List.replicate dets.length false)).tracks.getD k dTrack

/-- The detection emitted for the k-th track in this call, if any. -/
def trackEmit (s : SimpleTracker) (dets : List Detection) (k : Nat) : Option Detection :=
  (phaseA dets s.trackedObjects (List.replicate dets.length false)).emissions.getD k none

/-- IoU between the box of the k-th track and the box of detection j. -/
def detIoU (s : SimpleTracker) (dets : List Detection) (k j : Nat) : ℚ :=
  calculateIOU (trackAt s k).box (dets.getD j dDet).box

/-- A sequence of updateTracks calls on one SimpleTracker, accumulating the
ids issued to newly created tracks across all calls. -/
def runTracker (s : SimpleTracker) : List (List Detection) → SimpleTracker × List Int
  | [] => (s, [])
  | ds :: rest =>
    let r := updateTracks s ds
    let rr := runTracker r.state rest
    (rr.1, r.newIds ++ rr.2)

/-- One iteration of the per-frame loop in main: grab a frame; if it is
empty, break out of the loop (no detection, no updateTracks call);
otherwise run detection and feed the result to updateTracks. The value
none models an empty grabbed frame, and a returned none models the break. -/
def mainLoopStep {F : Type} (detect : F → List Detection) (s : SimpleTracker)
    (frame : Option F) : Option (SimpleTracker × List Detection) :=
  match frame with
  | none => none
  | some f =>
    let r := updateTracks s (detect f)
    some (r.state, r.output)

/-- INPUT_WIDTH of visionmodule.cpp. -/
def INPUT_WIDTH : Int := 640

/-- INPUT_HEIGHT of visionmodule.cpp. -/
def INPUT_HEIGHT : Int := 640

/-- CONF_THRESH of visionmodule.cpp (0.25f). -/
def CONF_THRESH : ℚ := 0.25

/-- NMS_THRESH of visionmodule.cpp (0.4f). -/
def NMS_THRESH : ℚ := 0.4

/-- The chained per-class confidence thresholds of VisionModule::detect. -/
def classConfThreshold (classId : Int) : ℚ :=
  if classId = 0 then 0.5
  else if classId = 56 ∨ classId = 57 then 0.2
  else if classId = 59 ∨ classId = 60 then 0.25
  else if classId = 61 ∨ classId = 62 ∨ classId = 63 then 0.2
  else if classId = 64 ∨ classId = 65 then 0.25
  else if classId = 66 then 0.2
  else if classId = 67 ∨ classId = 68 then 0.25
  else if classId = 73 ∨ classId = 74 then 0.2
  else if 1 ≤ classId ∧ classId ≤ 9 then 0.3
  else if 14 ≤ classId ∧ classId ≤ 23 then 0.3
  else 0.25

/-- The chained per-class minimum area ratio of VisionModule::detect. -/
def minAreaRatioQ (classId : Int) : ℚ :=
  if classId = 0 then 0.01
  else if classId = 64 ∨ classId = 66 ∨ classId = 67 then 0.0001
  else if classId = 56 ∨ classId = 57 ∨ classId = 59 then 0.005
  else 0.0005

/-- The chained per-class maximum area ratio of VisionModule::detect. -/
def maxAreaRatioQ (classId : Int) : ℚ :=
  if classId = 0 then 0.8
  else if classId = 56 ∨ classId = 57 ∨ classId = 59 then 0.9
  else 0.95

/-- The argmax loop over the class scores of one column: running maximum
starts at 0 with class index -1, and only a strictly greater score replaces
it, so the first index attaining the maximum wins. -/
def argmaxGo : List ℚ → Nat → ℚ → Int → ℚ × Int
  | [], _, best, bid => (best, bid)
  | sc :: rest, i, best, bid =>
    if best < sc then argmaxGo rest (i + 1) sc (i : Int)
    else argmaxGo rest (i + 1) best bid

/-- maxScore and classId for one column, as computed in VisionModule::detect. -/
def argmaxScore (scores : List ℚ) : ℚ × Int := argmaxGo scores 0 0 (-1)

/-- The box decoded from one column: model-space center/size scaled to pixel
space by cols/640 and rows/640, truncated to ints, the corner clamped to be
nonnegative, and the size clamped against the remaining frame extent. -/
def decodedRect (cols rows : Int) (p : RawPrediction) : Rect :=
  let scaleX : ℚ := (cols : ℚ) / (INPUT_WIDTH : ℚ)
  let scaleY : ℚ := (rows : ℚ) / (INPUT_HEIGHT : ℚ)
  let centerX := p.x * scaleX
  let centerY := p.y * scaleY
  let boxWidth := p.w * scaleX
  let boxHeight := p.h * scaleY
  let left := max 0 (truncQ (centerX - boxWidth / 2))
  let top := max 0 (truncQ (centerY - boxHeight / 2))
  let width := min (truncQ boxWidth) (cols - left)
  let height := min (truncQ boxHeight) (rows - top)
  ⟨left, top, width, height⟩

/-- The area ratio of a decoded box relative to the frame. -/
def areaRatioQ (cols rows : Int) (r : Rect) : ℚ :=
  ((r.w * r.h : Int) : ℚ) / ((cols * rows : Int) : ℚ)

/-- The per-column decode of VisionModule::detect: the global confidence
gate, the class-specific confidence gate, then the size and area-ratio
validation of the clamped box; a surviving column becomes a Candidate. -/
def decodeColumn (cols rows : Int) (p : RawPrediction) : Option Candidate :=
  let ms := argmaxScore p.scores
  if CONF_THRESH < ms.1 then
    if classConfThreshold ms.2 < ms.1 then
      let r := decodedRect cols rows p
      let ratio := areaRatioQ cols rows r
      if 5 < r.w ∧ 5 < r.h ∧ minAreaRatioQ ms.2 < ratio ∧ ratio < maxAreaRatioQ ms.2 ∧
          r.x + r.w ≤ cols ∧ r.y + r.h ≤ rows then
        some ⟨r, ms.1, ms.2⟩
      else none
    else none
  else none

/-- The candidate list decoded from the whole tensor, in column order. -/
def decodeAll (cols rows : Int) (preds : List RawPrediction) : List Candidate :=
  preds.filterMap (decodeColumn cols rows)

/-- The chained per-class NMS thresholds of VisionModule::detect. -/
def classNmsThreshold (classId : Int) : ℚ :=
  if classId = 0 then 0.3
  else if 56 ≤ classId ∧ classId ≤ 60 then 0.5
  else if 61 ≤ classId ∧ classId ≤ 67 then 0.6
  else NMS_THRESH

/-- The suppression test applied by candidate c to a later candidate d:
same class with IoU above the class NMS threshold, or (the else-if branch)
IoU above the fixed 0.8 cross-class ceiling. -/
def Suppresses (c d : Candidate) : Prop :=
  (c.classId = d.classId ∧ classNmsThreshold c.classId < iou c.box d.box) ∨
    (0.8 : ℚ) < iou c.box d.box

instance (c d : Candidate) : Decidable (Suppresses c d) := by
  unfold Suppresses; infer_instance

/-- Modelled from the spec: the class label table (coco_labels.h, not in
the sources) is an ordered list of 80 distinct class names; the label of an
emitted detection is represented by its class index. -/
def cocoLabel (classId : Int) : Int := classId

/-- The Detection emitted for a surviving candidate. -/
def mkDet (c : Candidate) : Detection := ⟨cocoLabel c.classId, c.score, c.box⟩

/-- The suppression walk of VisionModule::detect: each not-yet-removed
candidate in order is emitted (provided its classId is within the label
table) and removes every later not-yet-removed candidate it suppresses. -/
def suppress : List Candidate → List Detection
  | [] => []
  | c :: rest =>
    (if 0 ≤ c.classId ∧ c.classId < 80 then [mkDet c] else []) ++
      suppress (rest.filter (fun d => decide (¬ Suppresses c d)))
termination_by l => l.length
decreasing_by
  simp only [List.length_cons]
  exact Nat.lt_succ_of_le (List.length_filter_le _ _)

/-- Pairwise order used by the NMS sort: score of the later candidate does
not exceed the score of the earlier one. -/
def scoreGE (a b : Candidate) : Prop := b.score ≤ a.score

/-- The contract std::sort gives for the comparator (a.score > b.score): the
result is a permutation of the input, consecutive elements never strictly
increase in score. Which such permutation is produced (in particular the
relative order of equal scores) is not determined by the code. -/
def IsSortOutput (l out : List Candidate) : Prop :=
  out.Perm l ∧ out.Pairwise scoreGE

/-- Equal-score candidates appear in the output in their original relative
order (what a stable sort would guarantee). -/
def TieStable (l out : List Candidate) : Prop :=
  ∀ a ∈ l, ∀ b ∈ l, a.score = b.score →
    (l.indexOf a ≤ l.indexOf b ↔ out.indexOf a ≤ out.indexOf b)

/-- Insertion of a candidate into a score-descending list, before the first
element whose score it reaches; one valid realization of the NMS sort. -/
def insertCand (c : Candidate) : List Candidate → List Candidate
  | [] => [c]
  | d :: rest => if d.score ≤ c.score then c :: d :: rest else d :: insertCand c rest

/-- A score-descending sort of the candidate list (one std::sort outcome). -/
def sortCands : List Candidate → List Candidate
  | [] => []
  | c :: rest => insertCand c (sortCands rest)

/-- The NMS stage of VisionModule::detect: sort by descending score, then
run the suppression walk. -/
def nmsStage (cands : List Candidate) : List Detection :=
  suppress (sortCands cands)

/-- VisionModule::detect on one frame: an empty frame yields no detections
without touching anything; otherwise decode every tensor column, then run
the NMS stage. -/
def detectRun (frameEmpty : Bool) (cols rows : Int) (preds : List RawPrediction) :
    List Detection :=
  if frameEmpty then [] else nmsStage (decodeAll cols rows preds)

/-- A box lies within the frame bounds: nonnegative corner and size, and
the opposite corner inside the frame. -/
def inBounds (cols rows : Int) (r : Rect) : Prop :=
  0 ≤ r.x ∧ 0 ≤ r.y ∧ 0 ≤ r.w ∧ 0 ≤ r.h ∧ r.x + r.w ≤ cols ∧ r.y + r.h ≤ rows

/-- Example tracker state with one track at box (100,100,50,50), used by
the concrete witnesses. -/
def exTracker : SimpleTracker := ⟨[⟨⟨100, 100, 50, 50⟩, 7, 1/2, 0, 0⟩], 1⟩

/-- Example detection list with one detection at box (110,110,60,60) of
the same label, used by the concrete witnesses. -/
def exDets : List Detection := [⟨7, 3/5, ⟨110, 110, 60, 60⟩⟩]

/-- Example tracker state with one track already at five missed frames. -/
def exTrackerAged : SimpleTracker := ⟨[⟨⟨0, 0, 10, 10⟩, 3, 1/2, 5, 0⟩], 1⟩

/-- Example tensor column that passes both confidence gates and decodes to
a candidate in a 1000 by 1000 frame. -/
def exColumn : RawPrediction := ⟨72, 70.4, 16, 15, [0, 0, 0, 0, 0, 0, 0, 0, 0, 0, 9/10]⟩

/-- The candidate exColumn decodes to. -/
def exCand : Candidate := ⟨⟨100, 98, 25, 23⟩, 9/10, 10⟩

theorem mem_enum_bounds {l : List Detection} {p : Nat × Detection} (hp : p ∈ l.enum) :
    p.1 < l.length ∧ l.getD p.1 dDet = p.2 := by
  obtain ⟨i, x⟩ := p
  rw [List.mk_mem_enum_iff_getElem?] at hp
  rcases List.getElem?_eq_some_iff.1 hp with ⟨h, hx⟩
  exact ⟨h, by rw [List.getD_eq_getElem _ _ h, hx]⟩

theorem mem_enum_of_lt {l : List Detection} {i : Nat} (h : i < l.length) :
    (i, l.getD i dDet) ∈ l.enum := by
  rw [List.mk_mem_enum_iff_getElem?, List.getD_eq_getElem _ _ h]
  exact List.getElem?_eq_some_iff.2 ⟨h, rfl⟩

theorem enum_pairwise (l : List Detection) : l.enum.Pairwise (fun p q => p.1 < q.1) := by
  rw [List.pairwise_iff_getElem]
  intro i j hi hj hij
  rw [List.getElem_enum, List.getElem_enum]
  simpa using hij

theorem bestMatchGo_none {tb : Rect} {lbl : Int} {m : List Bool} :
    ∀ (l : List (Nat × Detection)) (bi : ℚ) (b : Option (Nat × Detection)),
      bestMatchGo tb lbl m l bi b = none →
      b = none ∧ ∀ p ∈ l, qualP m tb lbl p → calculateIOU tb p.2.box ≤ bi := by
  intro l
  induction l with
  | nil =>
    intro bi b h
    simp only [bestMatchGo] at h
    exact ⟨h, by simp⟩
  | cons hd rest ih =>
    obtain ⟨i, d⟩ := hd
    intro bi b h
    simp only [bestMatchGo] at h
    by_cases hskip : m.getD i false = true ∨ d.label ≠ lbl
    · rw [if_pos hskip] at h
      obtain ⟨hb, hrest⟩ := ih bi b h
      refine ⟨hb, ?_⟩
      intro p hp hq
      rcases List.mem_cons.1 hp with rfl | hp2
      · exfalso
        have h1 : m.getD i false = false := hq.1
        have h2 : d.label = lbl := hq.2.1
        rcases hskip with hs | hs
        · rw [h1] at hs
          exact Bool.false_ne_true hs
        · exact hs h2
      · exact hrest p hp2 hq
    · rw [if_neg hskip] at h
      by_cases hcond : IOU_THRESHOLD < calculateIOU tb d.box ∧ bi < calculateIOU tb d.box
      · rw [if_pos hcond] at h
        exact absurd (ih _ _ h).1 (by simp)
      · rw [if_neg hcond] at h
        obtain ⟨hb, hrest⟩ := ih bi b h
        refine ⟨hb, ?_⟩
        intro p hp hq
        rcases List.mem_cons.1 hp with rfl | hp2
        · have h3 : IOU_THRESHOLD < calculateIOU tb d.box := hq.2.2
          rcases not_and_or.1 hcond with hc | hc
          · exact absurd h3 hc
          · exact not_lt.1 hc
        · exact hrest p hp2 hq

theorem bestMatchGo_some {tb : Rect} {lbl : Int} {m : List Bool} :
    ∀ (l : List (Nat × Detection)) (bi : ℚ) (b : Option (Nat × Detection))
      (pr : Nat × Detection),
      l.Pairwise (fun p q => p.1 < q.1) →
      bestMatchGo tb lbl m l bi b = some pr →
      (b = some pr ∧ ∀ p ∈ l, qualP m tb lbl p → calculateIOU tb p.2.box ≤ bi) ∨
      (pr ∈ l ∧ qualP m tb lbl pr ∧ bi < calculateIOU tb pr.2.box ∧
        (∀ p ∈ l, qualP m tb lbl p →
          calculateIOU tb p.2.box ≤ calculateIOU tb pr.2.box) ∧
        (∀ p ∈ l, qualP m tb lbl p → p.1 < pr.1 →
          calculateIOU tb p.2.box < calculateIOU tb pr.2.box)) := by
  intro l
  induction l with
  | nil =>
    intro bi b pr _ h
    simp only [bestMatchGo] at h
    exact Or.inl ⟨h, by simp⟩
  | cons hd rest ih =>
    obtain ⟨i, d⟩ := hd
    intro bi b pr hpw h
    have hpw2 := (List.pairwise_cons.1 hpw).2
    have hlt : ∀ q ∈ rest, i < q.1 := (List.pairwise_cons.1 hpw).1
    simp only [bestMatchGo] at h
    by_cases hskip : m.getD i false = true ∨ d.label ≠ lbl
    · rw [if_pos hskip] at h
      have hhead : ∀ p : Nat × Detection, p = (i, d) → ¬ qualP m tb lbl p := by
        rintro p rfl hq
        have h1 : m.getD i false = false := hq.1
        have h2 : d.label = lbl := hq.2.1
        rcases hskip with hs | hs
        · rw [h1] at hs
          exact Bool.false_ne_true hs
        · exact hs h2
      rcases ih bi b pr hpw2 h with ⟨hb, hrest⟩ | ⟨hmem, hq, hbi, hmax, hstrict⟩
      · refine Or.inl ⟨hb, ?_⟩
        intro p hp hqp
        rcases List.mem_cons.1 hp with rfl | hp2
        · exact absurd hqp (hhead _ rfl)
        · exact hrest p hp2 hqp
      · refine Or.inr ⟨List.mem_cons_of_mem _ hmem, hq, hbi, ?_, ?_⟩
        · intro p hp hqp
          rcases List.mem_cons.1 hp with rfl | hp2
          · exact absurd hqp (hhead _ rfl)
          · exact hmax p hp2 hqp
        · intro p hp hqp hpi
          rcases List.mem_cons.1 hp with rfl | hp2
          · exact absurd hqp (hhead _ rfl)
          · exact hstrict p hp2 hqp hpi
    · rw [if_neg hskip] at h
      have hmf : m.getD i false = false := by
        rcases Bool.eq_false_or_eq_true (m.getD i false) with hh | hh
        · exact absurd (Or.inl hh) hskip
        · exact hh
      have hlbl : d.label = lbl := by
        by_contra hc
        exact hskip (Or.inr hc)
      by_cases hcond : IOU_THRESHOLD < calculateIOU tb d.box ∧ bi < calculateIOU tb d.box
      · rw [if_pos hcond] at h
        have hqhead : qualP m tb lbl (i, d) := ⟨hmf, hlbl, hcond.1⟩
        rcases ih _ _ pr hpw2 h with ⟨hb, hrest⟩ | ⟨hmem, hq, hbi, hmax, hstrict⟩
        · obtain rfl : (i, d) = pr := Option.some.inj hb
          refine Or.inr ⟨List.mem_cons_self _ _, hqhead, hcond.2, ?_, ?_⟩
          · intro p hp hqp
            rcases List.mem_cons.1 hp with rfl | hp2
            · exact le_refl _
            · exact hrest p hp2 hqp
          · intro p hp hqp hpi
            rcases List.mem_cons.1 hp with rfl | hp2
            · exact absurd hpi (lt_irrefl _)
            · exact absurd hpi (not_lt.2 (le_of_lt (hlt p hp2)))
        · refine Or.inr ⟨List.mem_cons_of_mem _ hmem, hq, lt_trans hcond.2 hbi, ?_, ?_⟩
          · intro p hp hqp
            rcases List.mem_cons.1 hp with rfl | hp2
            · exact le_of_lt hbi
            · exact hmax p hp2 hqp
          · intro p hp hqp hpi
            rcases List.mem_cons.1 hp with rfl | hp2
            · exact hbi
            · exact hstrict p hp2 hqp hpi
      · rw [if_neg hcond] at h
        rcases ih bi b pr hpw2 h with ⟨hb, hrest⟩ | ⟨hmem, hq, hbi, hmax, hstrict⟩
        · refine Or.inl ⟨hb, ?_⟩
          intro p hp hqp
          rcases List.mem_cons.1 hp with rfl | hp2
          · have h3 : IOU_THRESHOLD < calculateIOU tb d.box := hqp.2.2
            rcases not_and_or.1 hcond with hc | hc
            · exact absurd h3 hc
            · exact not_lt.1 hc
          · exact hrest p hp2 hqp
        · refine Or.inr ⟨List.mem_cons_of_mem _ hmem, hq, hbi, ?_, ?_⟩
          · intro p hp hqp
            rcases List.mem_cons.1 hp with rfl | hp2
            · have h3 : IOU_THRESHOLD < calculateIOU tb d.box := hqp.2.2
              rcases not_and_or.1 hcond with hc | hc
              · exact absurd h3 hc
              · exact le_trans (not_lt.1 hc) (le_of_lt hbi)
            · exact hmax p hp2 hqp
          · intro p hp hqp hpi
            rcases List.mem_cons.1 hp with rfl | hp2
            · have h3 : IOU_THRESHOLD < calculateIOU tb d.box := hqp.2.2
              rcases not_and_or.1 hcond with hc | hc
              · exact absurd h3 hc
              · exact lt_of_le_of_lt (not_lt.1 hc) hbi
            · exact hstrict p hp2 hqp hpi

theorem qualP_getD_iff {dets : List Detection} {m : List Bool} {tb : Rect} {lbl : Int}
    {i : Nat} (hi : i < dets.length) :
    qualP m tb lbl (i, dets.getD i dDet) ↔ qualifies dets m tb lbl i := by
  constructor
  · intro h
    exact ⟨hi, h.1, h.2.1, h.2.2⟩
  · intro h
    exact ⟨h.2.1, h.2.2.1, h.2.2.2⟩

theorem bestMatch_eq_none {tb : Rect} {lbl : Int} {dets : List Detection} {m : List Bool}
    (h : bestMatch tb lbl dets m = none) :
    ∀ i, ¬ qualifies dets m tb lbl i := by
  intro i hq
  obtain ⟨_, hall⟩ := bestMatchGo_none _ _ _ h
  have hmem := mem_enum_of_lt hq.1
  have hle := hall _ hmem ((qualP_getD_iff hq.1).2 hq)
  have hthr : IOU_THRESHOLD < calculateIOU tb (dets.getD i dDet).box := hq.2.2.2
  have h0 : (0 : ℚ) < IOU_THRESHOLD := by norm_num [IOU_THRESHOLD]
  simp only at hle
  linarith

theorem bestMatch_eq_some {tb : Rect} {lbl : Int} {dets : List Detection} {m : List Bool}
    {i : Nat} {d : Detection} (h : bestMatch tb lbl dets m = some (i, d)) :
    qualifies dets m tb lbl i ∧ dets.getD i dDet = d ∧
    (∀ j, qualifies dets m tb lbl j →
      calculateIOU tb (dets.getD j dDet).box ≤ calculateIOU tb (dets.getD i dDet).box) ∧
    (∀ j, qualifies dets m tb lbl j → j < i →
      calculateIOU tb (dets.getD j dDet).box < calculateIOU tb (dets.getD i dDet).box) := by
  rcases bestMatchGo_some _ _ _ _ (enum_pairwise dets) h with ⟨hb, _⟩ | ⟨hmem, hq, _, hmax, hstrict⟩
  · exact absurd hb (by simp)
  · obtain ⟨hi, hgd⟩ := mem_enum_bounds hmem
    have hqi : qualifies dets m tb lbl i := by
      refine ⟨hi, ?_, ?_, ?_⟩
      · exact hq.1
      · rw [hgd]; exact hq.2.1
      · rw [hgd]; exact hq.2.2
    refine ⟨hqi, hgd, ?_, ?_⟩
    · intro j hj
      have := hmax _ (mem_enum_of_lt hj.1) ((qualP_getD_iff hj.1).2 hj)
      simp only at this
      rw [hgd]
      exact this
    · intro j hj hji
      have := hstrict _ (mem_enum_of_lt hj.1) ((qualP_getD_iff hj.1).2 hj) hji
      simp only at this
      rw [hgd]
      exact this

theorem trackStep_choice_none {dets : List Detection} {m : List Bool} {t : TrackedObject}
    (h : (trackStep dets m t).choice = none) :
    trackStep dets m t =
      ⟨{ t with missedFrames := t.missedFrames + 1 }, m, none, none⟩ := by
  unfold trackStep at h ⊢
  rcases hbm : bestMatch t.box t.label dets m with _ | ⟨i, d⟩
  · rfl
  · rw [hbm] at h
    simp at h

theorem trackStep_choice_some {dets : List Detection} {m : List Bool} {t : TrackedObject}
    {i : Nat} (h : (trackStep dets m t).choice = some i) :
    bestMatch t.box t.label dets m = some (i, dets.getD i dDet) ∧
    trackStep dets m t =
      ⟨{ t with
          box := smoothRect t.box (dets.getD i dDet).box
          confidence := (dets.getD i dDet).score
          missedFrames := 0 },
        m.set i true, some i,
        some ⟨t.label, (dets.getD i dDet).score, smoothRect t.box (dets.getD i dDet).box⟩⟩ := by
  unfold trackStep at h ⊢
  rcases hbm : bestMatch t.box t.label dets m with _ | ⟨j, d⟩
  · rw [hbm] at h
    simp at h
  · rw [hbm] at h
    simp only at h
    obtain rfl : i = j := (Option.some.inj h).symm
    obtain rfl : dets.getD i dDet = d := (bestMatch_eq_some hbm).2.1
    exact ⟨rfl, rfl⟩

theorem phaseA_lengths (dets : List Detection) :
    ∀ (ts : List TrackedObject) (m : List Bool),
      (phaseA dets ts m).tracks.length = ts.length ∧
      (phaseA dets ts m).choices.length = ts.length ∧
      (phaseA dets ts m).emissions.length = ts.length := by
  intro ts
  induction ts with
  | nil => intro m; simp [phaseA]
  | cons t ts ih =>
    intro m
    obtain ⟨h1, h2, h3⟩ := ih (trackStep dets m t).flags
    simp [phaseA, h1, h2, h3]

theorem trackStep_flags_length {dets : List Detection} {m : List Bool} {t : TrackedObject} :
    (trackStep dets m t).flags.length = m.length := by
  unfold trackStep
  rcases bestMatch t.box t.label dets m with _ | ⟨i, d⟩
  · rfl
  · simp

theorem phaseA_flags_length (dets : List Detection) :
    ∀ (ts : List TrackedObject) (m : List Bool),
      (phaseA dets ts m).flags.length = m.length := by
  intro ts
  induction ts with
  | nil => intro m; rfl
  | cons t ts ih =>
    intro m
    have := ih (trackStep dets m t).flags
    simp only [phaseA]
    rw [this, trackStep_flags_length]

theorem phaseA_getD (dets : List Detection) :
    ∀ (ts : List TrackedObject) (m : List Bool) (k : Nat), k < ts.length →
      (phaseA dets ts m).tracks.getD k dTrack =
        (trackStep dets (phaseA dets (ts.take k) m).flags (ts.getD k dTrack)).track ∧
      (phaseA dets ts m).choices.getD k none =
        (trackStep dets (phaseA dets (ts.take k) m).flags (ts.getD k dTrack)).choice ∧
      (phaseA dets ts m).emissions.getD k none =
        (trackStep dets (phaseA dets (ts.take k) m).flags (ts.getD k dTrack)).emission := by
  intro ts
  induction ts with
  | nil =>
    intro m k hk
    exact absurd hk (by simp)
  | cons t ts ih =>
    intro m k hk
    match k with
    | 0 =>
      simp [phaseA]
    | Nat.succ k =>
      have hk2 : k < ts.length := by simpa using hk
      have := ih (trackStep dets m t).flags k hk2
      simpa [phaseA] using this

theorem getD_set_true_self {m : List Bool} {i : Nat} (hi : i < m.length) :
    (m.set i true).getD i false = true := by
  rw [List.getD_eq_getElem _ _ (by simpa using hi)]
  simp [List.getElem_set]

theorem getD_set_true_mono {m : List Bool} {i j : Nat} (h : m.getD j false = true) :
    (m.set i true).getD j false = true := by
  by_cases hj : j < m.length
  · rw [List.getD_eq_getElem _ _ (by simpa using hj)]
    rw [List.getElem_set]
    split
    · rfl
    · rw [List.getD_eq_getElem _ _ hj] at h
      exact h
  · rw [List.getD_eq_getElem?_getD, List.getElem?_eq_none (by omega)] at h
    simp at h

theorem trackStep_track_id {dets : List Detection} {m : List Bool} {t : TrackedObject} :
    (trackStep dets m t).track.id = t.id := by
  unfold trackStep
  rcases bestMatch t.box t.label dets m with _ | ⟨i, d⟩
  · rfl
  · rfl

theorem trackStep_flags_mono {dets : List Detection} {m : List Bool} {t : TrackedObject}
    {j : Nat} (h : m.getD j false = true) :
    (trackStep dets m t).flags.getD j false = true := by
  unfold trackStep
  rcases bestMatch t.box t.label dets m with _ | ⟨i, d⟩
  · exact h
  · exact getD_set_true_mono h

theorem phaseA_map_id (dets : List Detection) :
    ∀ (ts : List TrackedObject) (m : List Bool),
      (phaseA dets ts m).tracks.map (fun u => u.id) = ts.map (fun u => u.id) := by
  intro ts
  induction ts with
  | nil => intro m; rfl
  | cons t ts ih =>
    intro m
    simp only [phaseA, List.map_cons]
    rw [ih, trackStep_track_id]

theorem phaseA_append (dets : List Detection) :
    ∀ (l1 l2 : List TrackedObject) (m : List Bool),
      phaseA dets (l1 ++ l2) m =
        ⟨(phaseA dets l1 m).tracks ++ (phaseA dets l2 (phaseA dets l1 m).flags).tracks,
          (phaseA dets l2 (phaseA dets l1 m).flags).flags,
          (phaseA dets l1 m).choices ++ (phaseA dets l2 (phaseA dets l1 m).flags).choices,
          (phaseA dets l1 m).emissions ++
            (phaseA dets l2 (phaseA dets l1 m).flags).emissions⟩ := by
  intro l1
  induction l1 with
  | nil => intro l2 m; simp [phaseA]
  | cons t l1 ih =>
    intro l2 m
    simp only [List.cons_append, phaseA]
    rw [List.append_eq, ih]

theorem flagsAt_length (dets : List Detection) (ts : List TrackedObject) (k : Nat) :
    (flagsAt dets ts k).length = dets.length := by
  unfold flagsAt
  rw [phaseA_flags_length]
  exact List.length_replicate _ _

theorem flagsAt_succ (dets : List Detection) (ts : List TrackedObject) {k : Nat}
    (hk : k < ts.length) :
    flagsAt dets ts (k + 1) =
      (trackStep dets (flagsAt dets ts k) (ts.getD k dTrack)).flags := by
  unfold flagsAt
  rw [List.take_succ]
  rw [List.getElem?_eq_getElem hk]
  simp only [Option.toList_some]
  rw [phaseA_append]
  simp only [phaseA]
  rw [List.getD_eq_getElem _ _ hk]

theorem flagsAt_stable (dets : List Detection) (ts : List TrackedObject) {k : Nat}
    (hk : ts.length ≤ k) :
    flagsAt dets ts (k + 1) = flagsAt dets ts k := by
  unfold flagsAt
  rw [List.take_of_length_le hk, List.take_of_length_le (by omega)]

theorem flagsAt_mono (dets : List Detection) (ts : List TrackedObject) {j : Nat}
    {k1 k2 : Nat} (hk : k1 ≤ k2) (h : (flagsAt dets ts k1).getD j false = true) :
    (flagsAt dets ts k2).getD j false = true := by
  induction k2 with
  | zero =>
    obtain rfl : k1 = 0 := by omega
    exact h
  | succ k2 ih =>
    rcases Nat.lt_or_ge k1 (k2 + 1) with hlt | hge
    · have hh := ih (by omega)
      by_cases hts : k2 < ts.length
      · rw [flagsAt_succ dets ts hts]
        exact trackStep_flags_mono hh
      · rw [flagsAt_stable dets ts (by omega)]
        exact hh
    · obtain rfl : k1 = k2 + 1 := by omega
      exact h

theorem choice_sets_flag {s : SimpleTracker} {dets : List Detection} {k i : Nat}
    (hk : k < s.trackedObjects.length)
    (hc : trackChoice s dets k = some i) :
    (flagsAt dets s.trackedObjects (k + 1)).getD i false = true := by
  have hch : (trackStep dets (flagsAt dets s.trackedObjects k)
      (s.trackedObjects.getD k dTrack)).choice = some i := by
    have := (phaseA_getD dets s.trackedObjects (List.replicate dets.length false) k hk).2.1
    unfold trackChoice at hc
    rw [this] at hc
    exact hc
  obtain ⟨hbm, hstep⟩ := trackStep_choice_some hch
  have hq := (bestMatch_eq_some hbm).1
  have hlen : i < (flagsAt dets s.trackedObjects k).length := by
    rw [flagsAt_length]
    exact hq.1
  rw [flagsAt_succ dets s.trackedObjects hk, hstep]
  exact getD_set_true_self hlen

theorem trackStep_choice_none_bm {dets : List Detection} {m : List Bool} {t : TrackedObject}
    (h : (trackStep dets m t).choice = none) :
    bestMatch t.box t.label dets m = none := by
  unfold trackStep at h
  rcases hbm : bestMatch t.box t.label dets m with _ | ⟨i, d⟩
  · rfl
  · rw [hbm] at h
    simp at h

/-- Claim C5: when a track is matched to a detection, each of the box
fields x, y, width, height is replaced by 0.7 times the old value plus 0.3
times the detection value, truncated toward zero to an integer. -/
theorem c5_box_smoothing (s : SimpleTracker) (dets : List Detection) (k i : Nat)
    (hk : k < s.trackedObjects.length) (hc : trackChoice s dets k = some i) :
    (trackAfter s dets k).box.x =
      truncQ (0.7 * ((trackAt s k).box.x : ℚ) + 0.3 * ((dets.getD i dDet).box.x : ℚ)) ∧
    (trackAfter s dets k).box.y =
      truncQ (0.7 * ((trackAt s k).box.y : ℚ) + 0.3 * ((dets.getD i dDet).box.y : ℚ)) ∧
    (trackAfter s dets k).box.w =
      truncQ (0.7 * ((trackAt s k).box.w : ℚ) + 0.3 * ((dets.getD i dDet).box.w : ℚ)) ∧
    (trackAfter s dets k).box.h =
      truncQ (0.7 * ((trackAt s k).box.h : ℚ) + 0.3 * ((dets.getD i dDet).box.h : ℚ)) := by
  have hg := phaseA_getD dets s.trackedObjects (List.replicate dets.length false) k hk
  unfold trackChoice at hc
  rw [hg.2.1] at hc
  obtain ⟨hbm, hstep⟩ := trackStep_choice_some hc
  unfold trackAfter trackAt
  rw [hg.1, hstep]
  simp [smoothRect]

/-- Claim C4: in every updateTracks call the tracks are processed in
ascending identity order; a track claims exactly a qualifying detection
(unconsumed, same label, IoU strictly above IOU_THRESHOLD) of greatest IoU,
claims none exactly when no detection qualifies, and no detection is
claimed by two tracks. -/
theorem c4_greedy_matching (s : SimpleTracker) (dets : List Detection) (hwf : WF s) :
    s.trackedObjects.Pairwise (fun a b => a.id < b.id) ∧
    (∀ k i, k < s.trackedObjects.length → trackChoice s dets k = some i →
      qualifies dets (trackFlags s dets k) (trackAt s k).box (trackAt s k).label i ∧
      ∀ j, qualifies dets (trackFlags s dets k) (trackAt s k).box (trackAt s k).label j →
        detIoU s dets k j ≤ detIoU s dets k i) ∧
    (∀ k, k < s.trackedObjects.length → trackChoice s dets k = none →
      ∀ j, ¬ qualifies dets (trackFlags s dets k) (trackAt s k).box (trackAt s k).label j) ∧
    (∀ k1 k2 i, k1 < k2 → k2 < s.trackedObjects.length →
      trackChoice s dets k1 = some i → trackChoice s dets k2 ≠ some i) := by
  refine ⟨hwf.1, ?_, ?_, ?_⟩
  · intro k i hk hc
    have hg := phaseA_getD dets s.trackedObjects (List.replicate dets.length false) k hk
    unfold trackChoice at hc
    rw [hg.2.1] at hc
    obtain ⟨hbm, _⟩ := trackStep_choice_some hc
    have hspec := bestMatch_eq_some hbm
    unfold trackFlags trackAt flagsAt
    unfold detIoU trackAt
    exact ⟨hspec.1, fun j hj => hspec.2.2.1 j hj⟩
  · intro k hk hc j
    have hg := phaseA_getD dets s.trackedObjects (List.replicate dets.length false) k hk
    unfold trackChoice at hc
    rw [hg.2.1] at hc
    have hbm := trackStep_choice_none_bm hc
    unfold trackFlags trackAt flagsAt
    exact bestMatch_eq_none hbm j
  · intro k1 k2 i h12 hk2 hc1 hc2
    have hk1 : k1 < s.trackedObjects.length := lt_trans h12 hk2
    have hflag := choice_sets_flag hk1 hc1
    have hmono := flagsAt_mono dets s.trackedObjects (show k1 + 1 ≤ k2 from h12) hflag
    have hg := phaseA_getD dets s.trackedObjects (List.replicate dets.length false) k2 hk2
    unfold trackChoice at hc2
    rw [hg.2.1] at hc2
    obtain ⟨hbm, _⟩ := trackStep_choice_some hc2
    have hq := (bestMatch_eq_some hbm).1
    have hfalse : (flagsAt dets s.trackedObjects k2).getD i false = false := hq.2.1
    rw [hfalse] at hmono
    exact Bool.false_ne_true hmono

theorem eq_of_mem_of_pairwise_ids {l : List TrackedObject}
    (hl : l.Pairwise (fun a b => a.id < b.id)) :
    ∀ {u v : TrackedObject}, u ∈ l → v ∈ l → u.id = v.id → u = v := by
  induction hl with
  | nil =>
    intro u v hu _ _
    simp at hu
  | cons hhead _ ih =>
    intro u v hu hv he
    rcases List.mem_cons.1 hu with rfl | hu2
    · rcases List.mem_cons.1 hv with rfl | hv2
      · rfl
      · exact absurd he (ne_of_lt (hhead v hv2))
    · rcases List.mem_cons.1 hv with rfl | hv2
      · exact absurd he.symm (ne_of_lt (hhead u hu2))
      · exact ih hu2 hv2 he

theorem spawnTracks_ids_ge :
    ∀ (l : List (Detection × Bool)) (nid : Int),
      ∀ u ∈ (spawnTracks nid l).tracks, nid ≤ u.id := by
  intro l
  induction l with
  | nil =>
    intro nid u hu
    simp [spawnTracks] at hu
  | cons p rest ih =>
    intro nid u hu
    obtain ⟨d, c⟩ := p
    by_cases hc : c = true
    · rw [hc] at hu
      simp only [spawnTracks, if_true] at hu
      exact ih nid u hu
    · rw [Bool.not_eq_true] at hc
      rw [hc] at hu
      simp only [spawnTracks, Bool.false_eq_true, if_false] at hu
      rcases List.mem_cons.1 hu with rfl | hu2
      · exact le_refl _
      · have := ih (nid + 1) u hu2
        omega

/-- Claim C1: per updateTracks call, an unmatched track ages by exactly one
missed frame and emits nothing, a matched track has its missedFrames reset
to exactly 0, and the track survives into the store exactly when its
updated missedFrames is at most MAX_MISSED_FRAMES (retained at 5, deleted
on reaching 6, in that same call). -/
theorem c1_missed_and_eviction (s : SimpleTracker) (dets : List Detection) (k : Nat)
    (hwf : WF s) (hk : k < s.trackedObjects.length) :
    (trackChoice s dets k = none →
      (trackAfter s dets k).missedFrames = (trackAt s k).missedFrames + 1 ∧
      trackEmit s dets k = none) ∧
    (trackChoice s dets k ≠ none → (trackAfter s dets k).missedFrames = 0) ∧
    ((trackAt s k).id ∈ (updateTracks s dets).state.trackedObjects.map (fun u => u.id) ↔
      (trackAfter s dets k).missedFrames ≤ MAX_MISSED_FRAMES) := by
  have hg := phaseA_getD dets s.trackedObjects (List.replicate dets.length false) k hk
  refine ⟨?_, ?_, ?_⟩
  · intro hc
    unfold trackChoice at hc
    rw [hg.2.1] at hc
    have hstep := trackStep_choice_none hc
    unfold trackAfter trackEmit trackAt
    rw [hg.1, hg.2.2, hstep]
    exact ⟨rfl, rfl⟩
  · intro hc
    unfold trackChoice at hc
    rw [hg.2.1] at hc
    obtain ⟨i, hi⟩ := Option.ne_none_iff_exists'.1 hc
    obtain ⟨_, hstep⟩ := trackStep_choice_some hi
    unfold trackAfter
    rw [hg.1, hstep]
  · have hlen : (phaseA dets s.trackedObjects (List.replicate dets.length false)).tracks.length =
        s.trackedObjects.length := (phaseA_lengths dets s.trackedObjects _).1
    have hidseq := phaseA_map_id dets s.trackedObjects (List.replicate dets.length false)
    have hpw4 : (phaseA dets s.trackedObjects
        (List.replicate dets.length false)).tracks.Pairwise (fun a b => a.id < b.id) := by
      have hpw3 : ((phaseA dets s.trackedObjects
          (List.replicate dets.length false)).tracks.map (fun u => u.id)).Pairwise
          (fun a b => a < b) := by
        rw [hidseq]
        exact List.pairwise_map.2 hwf.1
      exact List.pairwise_map.1 hpw3
    have hkr : k < (phaseA dets s.trackedObjects
        (List.replicate dets.length false)).tracks.length := by rw [hlen]; exact hk
    have ht2mem : trackAfter s dets k ∈
        (phaseA dets s.trackedObjects (List.replicate dets.length false)).tracks := by
      unfold trackAfter
      rw [List.getD_eq_getElem _ _ hkr]
      exact List.getElem_mem hkr
    have htmem : trackAt s k ∈ s.trackedObjects := by
      unfold trackAt
      rw [List.getD_eq_getElem _ _ hk]
      exact List.getElem_mem hk
    have hid2 : (trackAfter s dets k).id = (trackAt s k).id := by
      unfold trackAfter trackAt
      rw [hg.1]
      exact trackStep_track_id
    have hidlt : (trackAt s k).id < s.nextId := hwf.2 _ htmem
    constructor
    · intro hmem
      simp only [updateTracks, List.map_append, List.mem_append] at hmem
      rcases hmem with hmem | hmem
      · rw [List.mem_map] at hmem
        obtain ⟨u, hu, huid⟩ := hmem
        rw [List.mem_filter] at hu
        have hu2 : u = trackAfter s dets k :=
          eq_of_mem_of_pairwise_ids hpw4 hu.1 ht2mem (by rw [huid, hid2])
        have := hu.2
        rw [hu2] at this
        exact of_decide_eq_true this
      · rw [List.mem_map] at hmem
        obtain ⟨u, hu, huid⟩ := hmem
        have := spawnTracks_ids_ge _ s.nextId u hu
        omega
    · intro hle
      simp only [updateTracks, List.map_append, List.mem_append]
      left
      rw [List.mem_map]
      refine ⟨trackAfter s dets k, ?_, hid2⟩
      rw [List.mem_filter]
      exact ⟨ht2mem, decide_eq_true hle⟩

theorem count_set_true {m : List Bool} :
    ∀ {i : Nat}, i < m.length → m.getD i false = false →
      (m.set i true).count true = m.count true + 1 := by
  induction m with
  | nil =>
    intro i hi _
    simp at hi
  | cons b m ih =>
    intro i hi hf
    match i with
    | 0 =>
      have hb : b = false := hf
      subst hb
      simp [List.count_cons]
    | Nat.succ i =>
      have hi2 : i < m.length := by simpa using hi
      have hf2 : m.getD i false = false := hf
      simp only [List.set_cons_succ, List.count_cons]
      rw [ih hi2 hf2]
      omega

theorem count_true_false (m : List Bool) : m.count true + m.count false = m.length := by
  induction m with
  | nil => rfl
  | cons b m ih =>
    cases b <;> simp [List.count_cons] <;> omega

theorem phaseA_out_count (dets : List Detection) :
    ∀ (ts : List TrackedObject) (m : List Bool), m.length = dets.length →
      ((phaseA dets ts m).emissions.reduceOption).length + m.count true =
        ((phaseA dets ts m).flags).count true := by
  intro ts
  induction ts with
  | nil =>
    intro m _
    simp [phaseA]
  | cons t ts ih =>
    intro m hm
    simp only [phaseA]
    rcases hc : (trackStep dets m t).choice with _ | i
    · have hstep := trackStep_choice_none hc
      rw [hstep]
      simp only [List.reduceOption_cons_of_none]
      exact ih m hm
    · obtain ⟨hbm, hstep⟩ := trackStep_choice_some hc
      have hq := (bestMatch_eq_some hbm).1
      have hi : i < m.length := by rw [hm]; exact hq.1
      have hf : m.getD i false = false := hq.2.1
      rw [hstep]
      simp only [List.reduceOption_cons_of_some, List.length_cons]
      have hlen2 : (m.set i true).length = dets.length := by
        rw [List.length_set]; exact hm
      have := ih (m.set i true) hlen2
      rw [count_set_true hi hf] at this
      omega

theorem countP_zip_snd {dets : List Detection} :
    ∀ {m : List Bool}, m.length = dets.length →
      (dets.zip m).countP (fun p => !p.2) = m.count false := by
  induction dets with
  | nil =>
    intro m hm
    have : m = [] := List.length_eq_zero.1 (by simpa using hm)
    subst this
    rfl
  | cons d dets ih =>
    intro m hm
    match m with
    | [] => simp at hm
    | b :: m =>
      have hm2 : m.length = dets.length := by simpa using hm
      cases b <;> simp [List.countP_cons, List.count_cons, ih hm2]

theorem spawnTracks_spec :
    ∀ (l : List (Detection × Bool)) (nid : Int),
      (spawnTracks nid l).ids =
        (List.range (l.countP (fun p => !p.2))).map (fun (j : Nat) => nid + (j : Int)) ∧
      (spawnTracks nid l).nextId = nid + (l.countP (fun p => !p.2) : Int) ∧
      (spawnTracks nid l).tracks.map (fun u => u.id) = (spawnTracks nid l).ids ∧
      (spawnTracks nid l).output = (l.filter (fun p => !p.2)).map (fun p => p.1) := by
  intro l
  induction l with
  | nil =>
    intro nid
    simp [spawnTracks]
  | cons p rest ih =>
    intro nid
    obtain ⟨d, c⟩ := p
    by_cases hc : c = true
    · subst hc
      simp only [spawnTracks, if_true, List.countP_cons, List.filter_cons]
      simpa using ih nid
    · rw [Bool.not_eq_true] at hc
      subst hc
      obtain ⟨ih1, ih2, ih3, ih4⟩ := ih (nid + 1)
      have hcount : List.countP (fun p => !p.2) ((d, false) :: rest) =
          List.countP (fun p => !p.2) rest + 1 := by
        simp [List.countP_cons]
      have hfilter : List.filter (fun p => !p.2) ((d, false) :: rest) =
          (d, false) :: List.filter (fun p => !p.2) rest := by
        simp [List.filter_cons]
      rw [hcount, hfilter]
      simp only [spawnTracks, Bool.false_eq_true, if_false]
      refine ⟨?_, ?_, ?_, ?_⟩
      · rw [ih1, List.range_succ_eq_map, List.map_cons, List.map_map]
        congr 1
        · simp
        · apply List.map_congr_left
          intro a _
          simp only [Function.comp_apply]
          push_cast
          ring
      · rw [ih2]
        push_cast
        ring
      · rw [List.map_cons, ih3, ih1]
      · rw [List.map_cons, ih4]

/-- Claim C10: updateTracks returns exactly one Detection per input
detection: every consumed detection yields one smoothed emission and every
unconsumed one is emitted unchanged by the spawning loop, so the output
list has exactly the length of the input list. -/
theorem c10_output_length (s : SimpleTracker) (dets : List Detection) :
    (updateTracks s dets).output.length = dets.length := by
  unfold updateTracks
  simp only [List.length_append]
  have hm0 : (List.replicate dets.length false).length = dets.length := by
    simp
  have h1 := phaseA_out_count dets s.trackedObjects (List.replicate dets.length false) hm0
  have hct : (List.replicate dets.length false).count true = 0 := by
    simp [List.count_replicate]
  rw [hct] at h1
  have hflen : (phaseA dets s.trackedObjects
      (List.replicate dets.length false)).flags.length = dets.length := by
    rw [phaseA_flags_length]
    exact hm0
  have h2 := (spawnTracks_spec (dets.zip (phaseA dets s.trackedObjects
      (List.replicate dets.length false)).flags) s.nextId).2.2.2
  rw [h2]
  rw [List.length_map, ← List.countP_eq_length_filter]
  rw [countP_zip_snd hflen]
  have h3 := count_true_false (phaseA dets s.trackedObjects
      (List.replicate dets.length false)).flags
  omega

theorem updateTracks_newIds (s : SimpleTracker) (dets : List Detection) :
    ∃ k : Nat, (updateTracks s dets).state.nextId = s.nextId + (k : Int) ∧
      (updateTracks s dets).newIds =
        (List.range k).map (fun (j : Nat) => s.nextId + (j : Int)) := by
  refine ⟨(dets.zip (phaseA dets s.trackedObjects
    (List.replicate dets.length false)).flags).countP (fun p => !p.2), ?_, ?_⟩
  · exact (spawnTracks_spec _ s.nextId).2.1
  · exact (spawnTracks_spec _ s.nextId).1

theorem runTracker_ids_aux :
    ∀ (calls : List (List Detection)) (s : SimpleTracker),
      ∃ k : Nat, (runTracker s calls).1.nextId = s.nextId + (k : Int) ∧
        (runTracker s calls).2 =
          (List.range k).map (fun (j : Nat) => s.nextId + (j : Int)) := by
  intro calls
  induction calls with
  | nil =>
    intro s
    refine ⟨0, by simp [runTracker], by simp [runTracker]⟩
  | cons ds rest ih =>
    intro s
    obtain ⟨k1, hk1a, hk1b⟩ := updateTracks_newIds s ds
    obtain ⟨k2, hk2a, hk2b⟩ := ih (updateTracks s ds).state
    refine ⟨k1 + k2, ?_, ?_⟩
    · simp only [runTracker]
      rw [hk2a, hk1a]
      push_cast
      ring
    · simp only [runTracker]
      rw [hk1b, hk2b, hk1a]
      rw [List.range_add, List.map_append, List.map_map]
      congr 1
      apply List.map_congr_left
      intro a _
      simp only [Function.comp_apply]
      push_cast
      ring

/-- Claim C2: starting from the initial tracker, across any sequence of
updateTracks calls the ids issued to new tracks are exactly 0, 1, ...,
M - 1 where M is the final value of the nextId counter (equivalently the
cumulative number of new tracks), each issued exactly once and never
reissued. -/
theorem c2_identity_uniqueness (calls : List (List Detection)) :
    (runTracker ⟨[], 0⟩ calls).2 =
      (List.range (runTracker ⟨[], 0⟩ calls).1.nextId.toNat).map
        (fun (j : Nat) => (j : Int)) ∧
    (runTracker ⟨[], 0⟩ calls).2.Nodup := by
  obtain ⟨k, h1, h2⟩ := runTracker_ids_aux calls ⟨[], 0⟩
  have hzero : (SimpleTracker.mk [] 0).nextId = 0 := rfl
  rw [hzero] at h1
  constructor
  · rw [h2, h1]
    have : ((0 : Int) + (k : Int)).toNat = k := by omega
    rw [this]
    apply List.map_congr_left
    intro a _
    simp
  · rw [h2]
    apply List.Nodup.map
    · intro a b hab
      have : (a : Int) = (b : Int) := by
        simpa using hab
      exact_mod_cast this
    · exact List.nodup_range k

theorem suppress_mem :
    ∀ (n : Nat) (l : List Candidate), l.length ≤ n → ∀ d ∈ suppress l,
      ∃ c ∈ l, (0 ≤ c.classId ∧ c.classId < 80) ∧ d = mkDet c := by
  intro n
  induction n with
  | zero =>
    intro l hl d hd
    have : l = [] := List.length_eq_zero.1 (by omega)
    subst this
    simp [suppress] at hd
  | succ n ih =>
    intro l hl d hd
    match l with
    | [] => simp [suppress] at hd
    | c :: rest =>
      rw [suppress] at hd
      rw [List.mem_append] at hd
      rcases hd with hd | hd
      · by_cases hc : 0 ≤ c.classId ∧ c.classId < 80
        · rw [if_pos hc] at hd
          rcases List.mem_cons.1 hd with rfl | hd2
          · exact ⟨c, List.mem_cons_self _ _, hc, rfl⟩
          · simp at hd2
        · rw [if_neg hc] at hd
          simp at hd
      · have hrest : (rest.filter (fun x => decide (¬ Suppresses c x))).length ≤ n := by
          have := List.length_filter_le (fun x => decide (¬ Suppresses c x)) rest
          simp only [List.length_cons] at hl
          omega
        obtain ⟨c2, hc2, hcls, hdet⟩ := ih _ hrest d hd
        exact ⟨c2, List.mem_cons_of_mem _ (List.mem_of_mem_filter hc2), hcls, hdet⟩

theorem suppress_pairwise :
    ∀ (n : Nat) (l : List Candidate), l.length ≤ n →
      (suppress l).Pairwise (fun d1 d2 =>
        (d1.label = d2.label → iou d1.box d2.box ≤ classNmsThreshold d1.label) ∧
        iou d1.box d2.box ≤ 0.8) := by
  intro n
  induction n with
  | zero =>
    intro l hl
    have : l = [] := List.length_eq_zero.1 (by omega)
    subst this
    simp [suppress]
  | succ n ih =>
    intro l hl
    match l with
    | [] => simp [suppress]
    | c :: rest =>
      rw [suppress]
      have hrest : (rest.filter (fun x => decide (¬ Suppresses c x))).length ≤ n := by
        have := List.length_filter_le (fun x => decide (¬ Suppresses c x)) rest
        simp only [List.length_cons] at hl
        omega
      rw [List.pairwise_append]
      refine ⟨?_, ih _ hrest, ?_⟩
      · by_cases hc : 0 ≤ c.classId ∧ c.classId < 80
        · rw [if_pos hc]
          simp
        · rw [if_neg hc]
          simp
      · intro d1 hd1 d2 hd2
        by_cases hc : 0 ≤ c.classId ∧ c.classId < 80
        · rw [if_pos hc] at hd1
          rcases List.mem_cons.1 hd1 with rfl | hd1f
          · obtain ⟨c2, hc2mem, _, rfl⟩ := suppress_mem n _ hrest d2 hd2
            rw [List.mem_filter] at hc2mem
            have hns : ¬ Suppresses c c2 := by
              have := hc2mem.2
              exact of_decide_eq_true this
            rw [Suppresses, not_or, not_and_or] at hns
            constructor
            · intro hlab
              have hcls : c.classId = c2.classId := hlab
              rcases hns.1 with hcon | hcon
              · exact absurd hcls hcon
              · exact not_lt.1 hcon
            · exact not_lt.1 hns.2
          · simp at hd1f
        · rw [if_neg hc] at hd1
          simp at hd1

/-- Claim C3: any two Detections emitted by the NMS stage that share a
label have IoU at most the class NMS threshold of that label, and any two
emitted Detections regardless of label have IoU at most the cross-class
ceiling 0.8. The suppression walk guarantees this for every candidate
order, in particular for the score-sorted order used by the stage. -/
theorem c3_nms_iou_bounds (cands : List Candidate) :
    (nmsStage cands).Pairwise (fun d1 d2 =>
      (d1.label = d2.label → iou d1.box d2.box ≤ classNmsThreshold d1.label) ∧
      iou d1.box d2.box ≤ 0.8) :=
  suppress_pairwise (sortCands cands).length _ (le_refl _)

theorem insertCand_perm (c : Candidate) :
    ∀ l : List Candidate, (insertCand c l).Perm (c :: l) := by
  intro l
  induction l with
  | nil => rfl
  | cons d rest ih =>
    rw [insertCand]
    split
    · rfl
    · exact ((ih.cons d).trans (List.Perm.swap c d rest)).symm.symm

theorem sortCands_perm : ∀ l : List Candidate, (sortCands l).Perm l := by
  intro l
  induction l with
  | nil => rfl
  | cons c rest ih =>
    rw [sortCands]
    exact (insertCand_perm c (sortCands rest)).trans (ih.cons c)

theorem insertCand_sorted (c : Candidate) :
    ∀ l : List Candidate, l.Pairwise scoreGE → (insertCand c l).Pairwise scoreGE := by
  intro l
  induction l with
  | nil =>
    intro _
    simp [insertCand]
  | cons d rest ih =>
    intro hl
    rw [insertCand]
    have hd := (List.pairwise_cons.1 hl).1
    have hrest := (List.pairwise_cons.1 hl).2
    split
    case isTrue hsc =>
      rw [List.pairwise_cons]
      refine ⟨?_, hl⟩
      intro x hx
      rcases List.mem_cons.1 hx with rfl | hx2
      · exact hsc
      · exact le_trans (hd x hx2) hsc
    case isFalse hsc =>
      rw [List.pairwise_cons]
      refine ⟨?_, ih hrest⟩
      intro x hx
      have hx3 := (insertCand_perm c rest).mem_iff.1 hx
      rcases List.mem_cons.1 hx3 with rfl | hx4
      · exact le_of_lt (lt_of_not_le hsc)
      · exact hd x hx4

theorem sortCands_sorted : ∀ l : List Candidate, (sortCands l).Pairwise scoreGE := by
  intro l
  induction l with
  | nil => simp [sortCands]
  | cons c rest ih =>
    rw [sortCands]
    exact insertCand_sorted c _ ih

/-- Amended claim C7: the NMS stage sorts the candidates into a permutation
ordered by nonincreasing score; the relative order of equal-score
candidates is not determined by the code (std::sort gives no stability
guarantee), and sortCands realizes one valid outcome. -/
theorem c7_sort_contract (l : List Candidate) : IsSortOutput l (sortCands l) :=
  ⟨sortCands_perm l, sortCands_sorted l⟩

/-- Counterexample to claim C7: with two equal-score candidates, the
swapped order also satisfies everything std::sort guarantees for the
comparator (a.score > b.score), yet it does not keep the original decode
order of the tie, so stability is not ensured by the code. -/
theorem c7_counterexample :
    IsSortOutput [⟨⟨0, 0, 10, 10⟩, 1, 0⟩, ⟨⟨50, 0, 10, 10⟩, 1, 0⟩]
      [⟨⟨50, 0, 10, 10⟩, 1, 0⟩, ⟨⟨0, 0, 10, 10⟩, 1, 0⟩] ∧
    (⟨⟨0, 0, 10, 10⟩, 1, 0⟩ : Candidate).score = (⟨⟨50, 0, 10, 10⟩, 1, 0⟩ : Candidate).score ∧
    ¬ TieStable [⟨⟨0, 0, 10, 10⟩, 1, 0⟩, ⟨⟨50, 0, 10, 10⟩, 1, 0⟩]
      [⟨⟨50, 0, 10, 10⟩, 1, 0⟩, ⟨⟨0, 0, 10, 10⟩, 1, 0⟩] := by
  refine ⟨⟨?_, ?_⟩, rfl, ?_⟩
  · decide
  · simp [scoreGE]
  · intro h
    have := h ⟨⟨0, 0, 10, 10⟩, 1, 0⟩ (by simp) ⟨⟨50, 0, 10, 10⟩, 1, 0⟩ (by simp) rfl
    simp only [List.indexOf] at this
    exact absurd (this.1 (by decide)) (by decide)

theorem decodedRect_le (cols rows : Int) (p : RawPrediction) :
    (decodedRect cols rows p).x + (decodedRect cols rows p).w ≤ cols ∧
    (decodedRect cols rows p).y + (decodedRect cols rows p).h ≤ rows := by
  simp only [decodedRect]
  omega

/-- Amended claim C6: for a tensor column that passes both confidence
gates, the decoder emits a Candidate exactly when both clipped pixel
dimensions exceed 5 and the area ratio lies strictly inside the
class-specific window (the source tests areaRatio with strict
inequalities, so a ratio exactly on a boundary is rejected). -/
theorem c6_decoder_gate (cols rows : Int) (p : RawPrediction)
    (h1 : CONF_THRESH < (argmaxScore p.scores).1)
    (h2 : classConfThreshold (argmaxScore p.scores).2 < (argmaxScore p.scores).1) :
    (decodeColumn cols rows p).isSome ↔
      (5 < (decodedRect cols rows p).w ∧ 5 < (decodedRect cols rows p).h ∧
        minAreaRatioQ (argmaxScore p.scores).2 <
          areaRatioQ cols rows (decodedRect cols rows p) ∧
        areaRatioQ cols rows (decodedRect cols rows p) <
          maxAreaRatioQ (argmaxScore p.scores).2) := by
  have hb := decodedRect_le cols rows p
  simp only [decodeColumn]
  rw [if_pos h1, if_pos h2]
  constructor
  · intro hs
    split at hs
    case isTrue hg => exact ⟨hg.1, hg.2.1, hg.2.2.1, hg.2.2.2.1⟩
    case isFalse => simp at hs
  · intro hc
    rw [if_pos (⟨hc.1, hc.2.1, hc.2.2.1, hc.2.2.2, hb.1, hb.2⟩ :
      5 < (decodedRect cols rows p).w ∧ 5 < (decodedRect cols rows p).h ∧
        minAreaRatioQ (argmaxScore p.scores).2 <
          areaRatioQ cols rows (decodedRect cols rows p) ∧
        areaRatioQ cols rows (decodedRect cols rows p) <
          maxAreaRatioQ (argmaxScore p.scores).2 ∧
        (decodedRect cols rows p).x + (decodedRect cols rows p).w ≤ cols ∧
        (decodedRect cols rows p).y + (decodedRect cols rows p).h ≤ rows)]
    rfl

/-- Counterexample to claim C6: a column passing both confidence gates
whose clipped box is 25 by 20 in a 1000 by 1000 frame has area ratio
exactly 0.0005, the class minimum; it lies inside the closed window
[minAreaRatio, maxAreaRatio] and both dimensions exceed 5, yet the decoder
emits no Candidate, because the source requires areaRatio to be strictly
greater than the minimum. -/
theorem c6_counterexample :
    decodeColumn 1000 1000 ⟨72, 70.4, 16, 12.8, [0, 0, 0, 0, 0, 0, 0, 0, 0, 0, 9/10]⟩ =
      none ∧
    CONF_THRESH < (argmaxScore [0, 0, 0, 0, 0, 0, 0, 0, 0, 0, (9/10 : ℚ)]).1 ∧
    classConfThreshold (argmaxScore [0, 0, 0, 0, 0, 0, 0, 0, 0, 0, (9/10 : ℚ)]).2 <
      (argmaxScore [0, 0, 0, 0, 0, 0, 0, 0, 0, 0, (9/10 : ℚ)]).1 ∧
    5 < (decodedRect 1000 1000 ⟨72, 70.4, 16, 12.8, [0, 0, 0, 0, 0, 0, 0, 0, 0, 0, 9/10]⟩).w ∧
    5 < (decodedRect 1000 1000 ⟨72, 70.4, 16, 12.8, [0, 0, 0, 0, 0, 0, 0, 0, 0, 0, 9/10]⟩).h ∧
    minAreaRatioQ (argmaxScore [0, 0, 0, 0, 0, 0, 0, 0, 0, 0, (9/10 : ℚ)]).2 ≤
      areaRatioQ 1000 1000
        (decodedRect 1000 1000 ⟨72, 70.4, 16, 12.8, [0, 0, 0, 0, 0, 0, 0, 0, 0, 0, 9/10]⟩) ∧
    areaRatioQ 1000 1000
        (decodedRect 1000 1000 ⟨72, 70.4, 16, 12.8, [0, 0, 0, 0, 0, 0, 0, 0, 0, 0, 9/10]⟩) ≤
      maxAreaRatioQ (argmaxScore [0, 0, 0, 0, 0, 0, 0, 0, 0, 0, (9/10 : ℚ)]).2 := by
  have hargmax : argmaxScore [0, 0, 0, 0, 0, 0, 0, 0, 0, 0, (9/10 : ℚ)] = (9/10, 10) := by
    norm_num [argmaxScore, argmaxGo]
  have hrect : decodedRect 1000 1000
      ⟨72, 70.4, 16, 12.8, [0, 0, 0, 0, 0, 0, 0, 0, 0, 0, 9/10]⟩ = ⟨100, 100, 25, 20⟩ := by
    norm_num [decodedRect, truncQ, INPUT_WIDTH, INPUT_HEIGHT]
  refine ⟨?_, ?_, ?_, ?_, ?_, ?_, ?_⟩
  · simp only [decodeColumn, hargmax, hrect]
    norm_num [CONF_THRESH, classConfThreshold, minAreaRatioQ, maxAreaRatioQ, areaRatioQ]
  · rw [hargmax]
    norm_num [CONF_THRESH]
  · rw [hargmax]
    norm_num [classConfThreshold]
  · rw [hrect]
    norm_num
  · rw [hrect]
    norm_num
  · rw [hargmax, hrect]
    norm_num [minAreaRatioQ, areaRatioQ]
  · rw [hargmax, hrect]
    norm_num [maxAreaRatioQ, areaRatioQ]

/-- Witness for c6_decoder_gate: a concrete gate-passing column whose
clipped box is 25 by 23 in a 1000 by 1000 frame; the equivalence holds and
the column decodes to a Candidate. -/
theorem c6_decoder_gate_witness :
    CONF_THRESH < (argmaxScore [0, 0, 0, 0, 0, 0, 0, 0, 0, 0, (9/10 : ℚ)]).1 ∧
    classConfThreshold (argmaxScore [0, 0, 0, 0, 0, 0, 0, 0, 0, 0, (9/10 : ℚ)]).2 <
      (argmaxScore [0, 0, 0, 0, 0, 0, 0, 0, 0, 0, (9/10 : ℚ)]).1 ∧
    ((decodeColumn 1000 1000 ⟨72, 70.4, 16, 15, [0, 0, 0, 0, 0, 0, 0, 0, 0, 0, 9/10]⟩).isSome ↔
      (5 < (decodedRect 1000 1000 ⟨72, 70.4, 16, 15, [0, 0, 0, 0, 0, 0, 0, 0, 0, 0, 9/10]⟩).w ∧
        5 < (decodedRect 1000 1000 ⟨72, 70.4, 16, 15, [0, 0, 0, 0, 0, 0, 0, 0, 0, 0, 9/10]⟩).h ∧
        minAreaRatioQ (argmaxScore [0, 0, 0, 0, 0, 0, 0, 0, 0, 0, (9/10 : ℚ)]).2 <
          areaRatioQ 1000 1000
            (decodedRect 1000 1000 ⟨72, 70.4, 16, 15, [0, 0, 0, 0, 0, 0, 0, 0, 0, 0, 9/10]⟩) ∧
        areaRatioQ 1000 1000
            (decodedRect 1000 1000 ⟨72, 70.4, 16, 15, [0, 0, 0, 0, 0, 0, 0, 0, 0, 0, 9/10]⟩) <
          maxAreaRatioQ (argmaxScore [0, 0, 0, 0, 0, 0, 0, 0, 0, 0, (9/10 : ℚ)]).2)) :=
  ⟨by norm_num [argmaxScore, argmaxGo, CONF_THRESH],
    by norm_num [argmaxScore, argmaxGo, classConfThreshold],
    c6_decoder_gate 1000 1000 _
      (by norm_num [argmaxScore, argmaxGo, CONF_THRESH])
      (by norm_num [argmaxScore, argmaxGo, classConfThreshold])⟩

theorem truncQ_nonneg {q : ℚ} (h : 0 ≤ q) : 0 ≤ truncQ q := by
  unfold truncQ
  rw [if_neg (not_lt.2 h)]
  exact Int.floor_nonneg.2 h

theorem truncQ_le {q : ℚ} (h : 0 ≤ q) : (truncQ q : ℚ) ≤ q := by
  unfold truncQ
  rw [if_neg (not_lt.2 h)]
  exact Int.floor_le q

theorem smoothRect_inBounds {cols rows : Int} {a b : Rect}
    (ha : inBounds cols rows a) (hb : inBounds cols rows b) :
    inBounds cols rows (smoothRect a b) := by
  obtain ⟨hax, hay, haw, hah, haxw, hayh⟩ := ha
  obtain ⟨hbx, hby, hbw, hbh, hbxw, hbyh⟩ := hb
  have hax2 : (0 : ℚ) ≤ (a.x : ℚ) := by exact_mod_cast hax
  have hay2 : (0 : ℚ) ≤ (a.y : ℚ) := by exact_mod_cast hay
  have haw2 : (0 : ℚ) ≤ (a.w : ℚ) := by exact_mod_cast haw
  have hah2 : (0 : ℚ) ≤ (a.h : ℚ) := by exact_mod_cast hah
  have hbx2 : (0 : ℚ) ≤ (b.x : ℚ) := by exact_mod_cast hbx
  have hby2 : (0 : ℚ) ≤ (b.y : ℚ) := by exact_mod_cast hby
  have hbw2 : (0 : ℚ) ≤ (b.w : ℚ) := by exact_mod_cast hbw
  have hbh2 : (0 : ℚ) ≤ (b.h : ℚ) := by exact_mod_cast hbh
  have haxw2 : (a.x : ℚ) + (a.w : ℚ) ≤ (cols : ℚ) := by exact_mod_cast haxw
  have hayh2 : (a.y : ℚ) + (a.h : ℚ) ≤ (rows : ℚ) := by exact_mod_cast hayh
  have hbxw2 : (b.x : ℚ) + (b.w : ℚ) ≤ (cols : ℚ) := by exact_mod_cast hbxw
  have hbyh2 : (b.y : ℚ) + (b.h : ℚ) ≤ (rows : ℚ) := by exact_mod_cast hbyh
  have hqx : (0 : ℚ) ≤ 0.7 * (a.x : ℚ) + 0.3 * (b.x : ℚ) := by linarith
  have hqy : (0 : ℚ) ≤ 0.7 * (a.y : ℚ) + 0.3 * (b.y : ℚ) := by linarith
  have hqw : (0 : ℚ) ≤ 0.7 * (a.w : ℚ) + 0.3 * (b.w : ℚ) := by linarith
  have hqh : (0 : ℚ) ≤ 0.7 * (a.h : ℚ) + 0.3 * (b.h : ℚ) := by linarith
  refine ⟨truncQ_nonneg hqx, truncQ_nonneg hqy, truncQ_nonneg hqw, truncQ_nonneg hqh, ?_, ?_⟩
  · have hsum : ((truncQ (0.7 * (a.x : ℚ) + 0.3 * (b.x : ℚ)) : Int) : ℚ) +
        ((truncQ (0.7 * (a.w : ℚ) + 0.3 * (b.w : ℚ)) : Int) : ℚ) ≤ (cols : ℚ) := by
      have h1 := truncQ_le hqx
      have h2 := truncQ_le hqw
      linarith
    exact_mod_cast hsum
  · have hsum : ((truncQ (0.7 * (a.y : ℚ) + 0.3 * (b.y : ℚ)) : Int) : ℚ) +
        ((truncQ (0.7 * (a.h : ℚ) + 0.3 * (b.h : ℚ)) : Int) : ℚ) ≤ (rows : ℚ) := by
      have h1 := truncQ_le hqy
      have h2 := truncQ_le hqh
      linarith
    exact_mod_cast hsum

theorem decodeColumn_inBounds {cols rows : Int} {p : RawPrediction} {c : Candidate}
    (h : decodeColumn cols rows p = some c) : inBounds cols rows c.box := by
  simp only [decodeColumn] at h
  split_ifs at h with h1 h2 hg
  obtain rfl := Option.some.inj h
  show inBounds cols rows (decodedRect cols rows p)
  refine ⟨?_, ?_, by omega, by omega, hg.2.2.2.2.1, hg.2.2.2.2.2⟩
  · simp only [decodedRect]
    exact le_max_left _ _
  · simp only [decodedRect]
    exact le_max_left _ _

theorem phaseA_tracks_boxes (dets : List Detection) :
    ∀ (ts : List TrackedObject) (m : List Bool) (u : TrackedObject),
      u ∈ (phaseA dets ts m).tracks →
      ∃ t ∈ ts, u.box = t.box ∨ ∃ d ∈ dets, u.box = smoothRect t.box d.box := by
  intro ts
  induction ts with
  | nil =>
    intro m u hu
    simp [phaseA] at hu
  | cons t ts ih =>
    intro m u hu
    simp only [phaseA] at hu
    rcases List.mem_cons.1 hu with rfl | hu2
    · rcases hc : (trackStep dets m t).choice with _ | i
      · have hstep := trackStep_choice_none hc
        refine ⟨t, List.mem_cons_self _ _, Or.inl ?_⟩
        rw [hstep]
      · obtain ⟨hbm, hstep⟩ := trackStep_choice_some hc
        have hq := (bestMatch_eq_some hbm).1
        have hdi : dets.getD i dDet ∈ dets := by
          rw [List.getD_eq_getElem _ _ hq.1]
          exact List.getElem_mem hq.1
        refine ⟨t, List.mem_cons_self _ _, Or.inr ⟨dets.getD i dDet, hdi, ?_⟩⟩
        rw [hstep]
    · obtain ⟨t2, ht2, hbox⟩ := ih (trackStep dets m t).flags u hu2
      exact ⟨t2, List.mem_cons_of_mem _ ht2, hbox⟩

theorem phaseA_emissions_boxes (dets : List Detection) :
    ∀ (ts : List TrackedObject) (m : List Bool) (e : Detection),
      some e ∈ (phaseA dets ts m).emissions →
      ∃ t ∈ ts, ∃ d ∈ dets, e.box = smoothRect t.box d.box := by
  intro ts
  induction ts with
  | nil =>
    intro m e he
    simp [phaseA] at he
  | cons t ts ih =>
    intro m e he
    simp only [phaseA] at he
    rcases List.mem_cons.1 he with heq | he2
    · rcases hc : (trackStep dets m t).choice with _ | i
      · have hstep := trackStep_choice_none hc
        rw [hstep] at heq
        simp at heq
      · obtain ⟨hbm, hstep⟩ := trackStep_choice_some hc
        rw [hstep] at heq
        have hq := (bestMatch_eq_some hbm).1
        have hdi : dets.getD i dDet ∈ dets := by
          rw [List.getD_eq_getElem _ _ hq.1]
          exact List.getElem_mem hq.1
        refine ⟨t, List.mem_cons_self _ _, dets.getD i dDet, hdi, ?_⟩
        have he3 : e = ⟨t.label, (dets.getD i dDet).score,
            smoothRect t.box (dets.getD i dDet).box⟩ := Option.some.inj heq
        rw [he3]
    · obtain ⟨t2, ht2, d2, hd2, hbox⟩ := ih (trackStep dets m t).flags e he2
      exact ⟨t2, List.mem_cons_of_mem _ ht2, d2, hd2, hbox⟩

theorem spawnTracks_boxes :
    ∀ (l : List (Detection × Bool)) (nid : Int) (u : TrackedObject),
      u ∈ (spawnTracks nid l).tracks → ∃ q ∈ l, u.box = q.1.box := by
  intro l
  induction l with
  | nil =>
    intro nid u hu
    simp [spawnTracks] at hu
  | cons q rest ih =>
    intro nid u hu
    obtain ⟨d, cns⟩ := q
    by_cases hc : cns = true
    · rw [hc] at hu
      simp only [spawnTracks, if_true] at hu
      obtain ⟨q2, hq2, hbox⟩ := ih nid u hu
      exact ⟨q2, List.mem_cons_of_mem _ hq2, hbox⟩
    · rw [Bool.not_eq_true] at hc
      subst hc
      simp only [spawnTracks, Bool.false_eq_true, if_false] at hu
      rcases List.mem_cons.1 hu with rfl | hu2
      · exact ⟨(d, false), List.mem_cons_self _ _, rfl⟩
      · obtain ⟨q2, hq2, hbox⟩ := ih (nid + 1) u hu2
        exact ⟨q2, List.mem_cons_of_mem _ hq2, hbox⟩

/-- Claim C8: every Candidate box emitted by the decoder lies within frame
bounds, and the tracker preserves containment: starting from in-bounds
tracks and in-bounds detections, every stored track box and every output
Detection box of updateTracks lies within frame bounds. -/
theorem c8_boxes_in_bounds (cols rows : Int) (s : SimpleTracker) (dets : List Detection)
    (p : RawPrediction) (c : Candidate)
    (hdec : decodeColumn cols rows p = some c)
    (hs : ∀ t ∈ s.trackedObjects, inBounds cols rows t.box)
    (hd : ∀ d ∈ dets, inBounds cols rows d.box) :
    inBounds cols rows c.box ∧
    (∀ t ∈ (updateTracks s dets).state.trackedObjects, inBounds cols rows t.box) ∧
    (∀ d ∈ (updateTracks s dets).output, inBounds cols rows d.box) := by
  refine ⟨decodeColumn_inBounds hdec, ?_, ?_⟩
  · intro u hu
    simp only [updateTracks, List.mem_append] at hu
    rcases hu with hu | hu
    · have hu2 := List.mem_of_mem_filter hu
      obtain ⟨t, ht, hbox⟩ := phaseA_tracks_boxes dets s.trackedObjects _ u hu2
      rcases hbox with hbox | ⟨d, hdmem, hbox⟩
      · rw [hbox]
        exact hs t ht
      · rw [hbox]
        exact smoothRect_inBounds (hs t ht) (hd d hdmem)
    · obtain ⟨q, hq, hbox⟩ := spawnTracks_boxes _ s.nextId u hu
      obtain ⟨d0, b0⟩ := q
      rw [hbox]
      exact hd d0 (List.of_mem_zip hq).1
  · intro d hd2
    simp only [updateTracks, List.mem_append] at hd2
    rcases hd2 with hd2 | hd2
    · rw [List.reduceOption_mem_iff] at hd2
      obtain ⟨t, ht, d2, hd2m, hbox⟩ := phaseA_emissions_boxes dets s.trackedObjects _ d hd2
      rw [hbox]
      exact smoothRect_inBounds (hs t ht) (hd d2 hd2m)
    · rw [(spawnTracks_spec _ s.nextId).2.2.2] at hd2
      rw [List.mem_map] at hd2
      obtain ⟨q, hq, rfl⟩ := hd2
      obtain ⟨d0, b0⟩ := q
      exact hd d0 (List.of_mem_zip (List.mem_of_mem_filter hq)).1

theorem reduceOption_map_none {α β : Type} (l : List α) :
    (l.map (fun _ => (none : Option β))).reduceOption = [] := by
  induction l with
  | nil => rfl
  | cons a l ih => simpa using ih

theorem phaseA_nil_dets :
    ∀ (ts : List TrackedObject) (m : List Bool),
      phaseA [] ts m =
        ⟨ts.map (fun t => { t with missedFrames := t.missedFrames + 1 }), m,
          ts.map (fun _ => none), ts.map (fun _ => none)⟩ := by
  intro ts
  induction ts with
  | nil => intro m; rfl
  | cons t ts ih =>
    intro m
    have hts : trackStep [] m t =
        ⟨{ t with missedFrames := t.missedFrames + 1 }, m, none, none⟩ := rfl
    simp only [phaseA, hts, List.map_cons]
    rw [ih]

/-- Counterexample to claim C9: when the camera yields an empty frame, the
main loop breaks out immediately; updateTracks is not invoked, so the state
that claim C9 predicts (every track aged by one) is not produced. -/
theorem c9_counterexample :
    mainLoopStep (fun _ : Unit => []) ⟨[⟨dRect, 0, 0, 0, 0⟩], 1⟩ none = none ∧
    (updateTracks ⟨[⟨dRect, 0, 0, 0, 0⟩], 1⟩ []).state.trackedObjects.map
      (fun t => t.missedFrames) = [1] ∧
    mainLoopStep (fun _ : Unit => []) ⟨[⟨dRect, 0, 0, 0, 0⟩], 1⟩ none ≠
      some ((updateTracks ⟨[⟨dRect, 0, 0, 0, 0⟩], 1⟩ []).state,
        (updateTracks ⟨[⟨dRect, 0, 0, 0, 0⟩], 1⟩ []).output) := by
  refine ⟨rfl, ?_, by simp [mainLoopStep]⟩
  rw [updateTracks]
  rw [phaseA_nil_dets]
  rfl

/-- Amended claim C9: on an empty frame the main loop terminates without
calling detection or updateTracks, leaving the tracker untouched; detect
itself returns an empty list for an empty frame, and updateTracks applied
to an empty detection list emits nothing, ages every track by exactly one
missed frame, evicts those whose count exceeds the threshold, and leaves
the id counter unchanged. -/
theorem c9_empty_frame (s : SimpleTracker) {F : Type} (detect : F → List Detection)
    (cols rows : Int) (preds : List RawPrediction) :
    mainLoopStep detect s none = none ∧
    detectRun true cols rows preds = [] ∧
    (updateTracks s []).output = [] ∧
    (updateTracks s []).state.trackedObjects =
      (s.trackedObjects.map (fun t => { t with missedFrames := t.missedFrames + 1 })).filter
        (fun t => decide (t.missedFrames ≤ MAX_MISSED_FRAMES)) ∧
    (updateTracks s []).state.nextId = s.nextId := by
  refine ⟨rfl, rfl, ?_, ?_, ?_⟩
  · rw [updateTracks, phaseA_nil_dets]
    simp only [List.zip_nil_left, spawnTracks]
    rw [reduceOption_map_none]
    rfl
  · rw [updateTracks, phaseA_nil_dets]
    simp only [List.zip_nil_left, spawnTracks]
    simp
  · rw [updateTracks, phaseA_nil_dets]
    simp only [List.zip_nil_left, spawnTracks]

/-- Witness for c5_box_smoothing: the spec scenario, the track box
(100,100,50,50) matched to detection box (110,110,60,60) yields the new
box (103,103,53,53). -/
theorem c5_box_smoothing_witness :
    0 < exTracker.trackedObjects.length ∧
    trackChoice exTracker exDets 0 = some 0 ∧
    ((trackAfter exTracker exDets 0).box.x =
      truncQ (0.7 * ((trackAt exTracker 0).box.x : ℚ) +
        0.3 * ((exDets.getD 0 dDet).box.x : ℚ)) ∧
    (trackAfter exTracker exDets 0).box.y =
      truncQ (0.7 * ((trackAt exTracker 0).box.y : ℚ) +
        0.3 * ((exDets.getD 0 dDet).box.y : ℚ)) ∧
    (trackAfter exTracker exDets 0).box.w =
      truncQ (0.7 * ((trackAt exTracker 0).box.w : ℚ) +
        0.3 * ((exDets.getD 0 dDet).box.w : ℚ)) ∧
    (trackAfter exTracker exDets 0).box.h =
      truncQ (0.7 * ((trackAt exTracker 0).box.h : ℚ) +
        0.3 * ((exDets.getD 0 dDet).box.h : ℚ))) ∧
    (trackAfter exTracker exDets 0).box = ⟨103, 103, 53, 53⟩ := by
  have h1 : 0 < exTracker.trackedObjects.length := by simp [exTracker]
  have h2 : trackChoice exTracker exDets 0 = some 0 := by
    norm_num [trackChoice, phaseA, trackStep, bestMatch, bestMatchGo, List.enum,
      List.enumFrom, calculateIOU, interArea, Rect.area, IOU_THRESHOLD, List.replicate,
      exTracker, exDets]
  refine ⟨h1, h2, c5_box_smoothing exTracker exDets 0 0 h1 h2, ?_⟩
  norm_num [trackAfter, phaseA, trackStep, bestMatch, bestMatchGo, List.enum,
    List.enumFrom, calculateIOU, interArea, Rect.area, IOU_THRESHOLD, List.replicate,
    exTracker, exDets, smoothRect, truncQ]

/-- Witness for c4_greedy_matching: in the example state the single track
claims detection 0, which qualifies and has maximal IoU. -/
theorem c4_greedy_matching_witness :
    WF exTracker ∧
    (qualifies exDets (trackFlags exTracker exDets 0) (trackAt exTracker 0).box
        (trackAt exTracker 0).label 0 ∧
      ∀ j, qualifies exDets (trackFlags exTracker exDets 0) (trackAt exTracker 0).box
          (trackAt exTracker 0).label j →
        detIoU exTracker exDets 0 j ≤ detIoU exTracker exDets 0 0) := by
  have hwf : WF exTracker := by
    constructor
    · simp [exTracker]
    · intro t ht
      simp only [exTracker, List.mem_singleton] at ht
      rw [ht]
      norm_num [exTracker]
  have h1 : 0 < exTracker.trackedObjects.length := by simp [exTracker]
  have h2 : trackChoice exTracker exDets 0 = some 0 := by
    norm_num [trackChoice, phaseA, trackStep, bestMatch, bestMatchGo, List.enum,
      List.enumFrom, calculateIOU, interArea, Rect.area, IOU_THRESHOLD, List.replicate,
      exTracker, exDets]
  exact ⟨hwf, (c4_greedy_matching exTracker exDets hwf).2.1 0 0 h1 h2⟩

/-- Witness for c1_missed_and_eviction: a track with five missed frames
and no detections ages to six missed frames, is evicted in this very call,
and emits nothing; the store ends empty. -/
theorem c1_missed_and_eviction_witness :
    WF exTrackerAged ∧
    0 < exTrackerAged.trackedObjects.length ∧
    ((trackChoice exTrackerAged [] 0 = none →
      (trackAfter exTrackerAged [] 0).missedFrames =
        (trackAt exTrackerAged 0).missedFrames + 1 ∧
      trackEmit exTrackerAged [] 0 = none) ∧
    (trackChoice exTrackerAged [] 0 ≠ none →
      (trackAfter exTrackerAged [] 0).missedFrames = 0) ∧
    ((trackAt exTrackerAged 0).id ∈
        (updateTracks exTrackerAged []).state.trackedObjects.map (fun u => u.id) ↔
      (trackAfter exTrackerAged [] 0).missedFrames ≤ MAX_MISSED_FRAMES)) ∧
    (updateTracks exTrackerAged []).state.trackedObjects = [] := by
  have hwf : WF exTrackerAged := by
    constructor
    · simp [exTrackerAged]
    · intro t ht
      simp only [exTrackerAged, List.mem_singleton] at ht
      rw [ht]
      norm_num [exTrackerAged]
  have h1 : 0 < exTrackerAged.trackedObjects.length := by simp [exTrackerAged]
  refine ⟨hwf, h1, c1_missed_and_eviction exTrackerAged [] 0 hwf h1, ?_⟩
  rw [updateTracks, phaseA_nil_dets]
  rfl

/-- Witness for c8_boxes_in_bounds: a concrete decoded candidate and a
concrete update where all boxes stay within the 1000 by 1000 frame. -/
theorem c8_boxes_in_bounds_witness :
    decodeColumn 1000 1000 exColumn = some exCand ∧
    (∀ t ∈ exTracker.trackedObjects, inBounds 1000 1000 t.box) ∧
    (∀ d ∈ exDets, inBounds 1000 1000 d.box) ∧
    (inBounds 1000 1000 exCand.box ∧
      (∀ t ∈ (updateTracks exTracker exDets).state.trackedObjects,
        inBounds 1000 1000 t.box) ∧
      (∀ d ∈ (updateTracks exTracker exDets).output, inBounds 1000 1000 d.box)) := by
  have hdec : decodeColumn 1000 1000 exColumn = some exCand := by
    have hargmax : argmaxScore exColumn.scores = (9/10, 10) := by
      norm_num [argmaxScore, argmaxGo, exColumn]
    have hrect : decodedRect 1000 1000 exColumn = ⟨100, 98, 25, 23⟩ := by
      norm_num [decodedRect, truncQ, INPUT_WIDTH, INPUT_HEIGHT, exColumn]
    simp only [decodeColumn, hargmax, hrect]
    norm_num [CONF_THRESH, classConfThreshold, minAreaRatioQ, maxAreaRatioQ, areaRatioQ,
      exCand]
  have hs : ∀ t ∈ exTracker.trackedObjects, inBounds 1000 1000 t.box := by
    intro t ht
    simp only [exTracker, List.mem_singleton] at ht
    rw [ht]
    norm_num [inBounds]
  have hd : ∀ d ∈ exDets, inBounds 1000 1000 d.box := by
    intro d hd
    simp only [exDets, List.mem_singleton] at hd
    rw [hd]
    norm_num [inBounds]
  exact ⟨hdec, hs, hd, c8_boxes_in_bounds 1000 1000 exTracker exDets exColumn exCand hdec hs hd⟩
